import Mathlib

/-!
Verification of the libfuse-fs core against its specification.

The definitions below are a shallow embedding of the Rust sources:
  * `passthrough/util.rs`   — `UniqueInodeGenerator::get_unique_inode`,
    `validate_path_component`, `filetype_from_mode`;
  * `passthrough/file_handle.rs` — `CFileHandle::cmp`, `FileHandle`,
    `FileHandle::from_name_at`;
  * `util/bind_mount.rs`    — `BindMountManager::{unmount_all, do_unmount,
    validate_mount_target}`;
  * `util/bind.rs`          — `BindManager::mount_all`, `BindMount::new`.

Machine integers are modelled as `Nat`/`Int` with explicit truncation where
the source can overflow; fallible operations return `Except`; host syscalls
are oracles passed in as explicit parameters, and the functions additionally
return the trace of syscall invocations where a claim is about the calls made.
-/

deriving instance DecidableEq for Except

namespace LibfuseFs

/-! ## Stable-inode generator (`passthrough/util.rs`) -/

/-- `MAX_HOST_INO` from `passthrough/mod.rs` (not under `src/`): pinned to
`2^47 - 1` by the spec ("bits 46..0 : 47-bit payload", "If `host_ino ≤ 2^47 − 1`")
and by `test_generate_unique_inode`, which asserts that `ino = MAX_HOST_INO`
encodes to `0x017fffffffffff`. -/
def MAX_HOST_INO : Nat := 2 ^ 47 - 1

/-- `VIRTUAL_INODE_FLAG: u64 = 1 << 55` from `passthrough/util.rs`. -/
def VIRTUAL_INODE_FLAG : Nat := 1 <<< 55

/-- `InodeId` from `passthrough/inode_store.rs` (fields used by
`get_unique_inode`): host inode number, device id and mount id, all `u64`. -/
structure InodeId where
  ino : Nat
  dev : Nat
  mnt : Nat
deriving DecidableEq, Repr

/-- The two failure exits of `get_unique_inode`.  Both are produced by
`io::Error::other(..)` in the source. -/
inductive GenError where
  /-- "the number of combinations of dev and mntid exceeds 255" -/
  | tagOverflow
  /-- "the virtual inode excess {MAX_HOST_INO}" -/
  | virtualOverflow
deriving DecidableEq, Repr

/-- `io::Error::other` constructs an error of kind `Other` whose
`raw_os_error()` is `None`; neither generator error carries an OS errno. -/
def GenError.rawOsError : GenError → Option Nat := fun _ => none

/-- Mutable state of `UniqueInodeGenerator`: the `BTreeMap<(dev, mnt), u8>`
(modelled as an association list with first-match lookup), the `AtomicU8`
tag counter and the `AtomicU64` virtual-inode counter. -/
structure GenState where
  devMntMap : List ((Nat × Nat) × Nat)
  nextUniqueId : Nat
  nextVirtualInode : Nat
deriving DecidableEq, Repr

/-- `UniqueInodeGenerator::new()`. -/
def GenState.fresh : GenState := ⟨[], 1, 1⟩

/-- First-match lookup in the association list modelling the `BTreeMap`. -/
def lookupTag : List ((Nat × Nat) × Nat) → Nat × Nat → Option Nat
  | [], _ => none
  | (k', v) :: rest, k => if k' = k then some v else lookupTag rest k

/-- Payload selection of `get_unique_inode` (the `let inode = ...` block):
host inode when it fits in 47 bits, otherwise a freshly allocated virtual
counter with `VIRTUAL_INODE_FLAG` OR'd in.  The `AtomicU64` increment wraps
modulo `2^64`. -/
def allocPayload (st : GenState) (tag : Nat) (id : InodeId) :
    Except GenError Nat × GenState :=
  if id.ino ≤ MAX_HOST_INO then
    (Except.ok ((tag <<< 47) ||| id.ino), st)
  else if MAX_HOST_INO < st.nextVirtualInode then
    (Except.error GenError.virtualOverflow, st)
  else
    (Except.ok ((tag <<< 47) ||| (st.nextVirtualInode ||| VIRTUAL_INODE_FLAG)),
      { st with nextVirtualInode := (st.nextVirtualInode + 1) % 2 ^ 64 })

/-- `UniqueInodeGenerator::get_unique_inode`.  Returns the result together
with the post-state (the map insertion persists even when the virtual-counter
check fails afterwards, as in the source).  The `AtomicU8` increment wraps
modulo `2^8`. -/
def get_unique_inode (st : GenState) (id : InodeId) :
    Except GenError Nat × GenState :=
  match lookupTag st.devMntMap (id.dev, id.mnt) with
  | some tag => allocPayload st tag id
  | none =>
    if st.nextUniqueId = 255 then
      (Except.error GenError.tagOverflow, st)
    else
      let tag := st.nextUniqueId
      let st' : GenState :=
        { st with
          devMntMap := ((id.dev, id.mnt), tag) :: st.devMntMap
          nextUniqueId := (st.nextUniqueId + 1) % 2 ^ 8 }
      allocPayload st' tag id

/-- Run a sequence of `get_unique_inode` calls, pairing every call's
argument with its result. -/
def outcomes (st : GenState) : List InodeId → List (InodeId × Except GenError Nat)
  | [] => []
  | id :: rest =>
    let (r, st') := get_unique_inode st id
    (id, r) :: outcomes st' rest

/-- Final generator state after a sequence of calls. -/
def runState (st : GenState) : List InodeId → GenState
  | [] => st
  | id :: rest => runState (get_unique_inode st id).2 rest

/-- Linux `ENOSPC` (the errno the spec calls `NoSpace`). -/
def ENOSPC : Nat := 28

/-- Generator-state well-formedness: every recorded tag lies in
`1 ..= nextUniqueId - 1`, keys and tags are pairwise distinct, the atomic
counters are in their reachable ranges. -/
def WF (st : GenState) : Prop :=
  (∀ e ∈ st.devMntMap, 1 ≤ e.2 ∧ e.2 < st.nextUniqueId) ∧
  st.devMntMap.Pairwise (fun a b => a.1 ≠ b.1 ∧ a.2 ≠ b.2) ∧
  1 ≤ st.nextUniqueId ∧ st.nextUniqueId ≤ 255 ∧ 1 ≤ st.nextVirtualInode

instance (st : GenState) : Decidable (WF st) := by
  unfold WF
  infer_instance

/-- All map entries of `st` survive into `st'`. -/
def MapExtends (st st' : GenState) : Prop :=
  ∀ k t, lookupTag st.devMntMap k = some t → lookupTag st'.devMntMap k = some t

theorem WF.fresh : WF GenState.fresh := by
  constructor
  · intro e he; simp [GenState.fresh] at he
  · exact ⟨List.Pairwise.nil, by simp [GenState.fresh]⟩

theorem MapExtends.rfl {st : GenState} : MapExtends st st := fun _ _ h => h

theorem MapExtends.trans {s t u : GenState} (h₁ : MapExtends s t)
    (h₂ : MapExtends t u) : MapExtends s u :=
  fun k v h => h₂ k v (h₁ k v h)

theorem lookupTag_mem {l : List ((Nat × Nat) × Nat)} {k : Nat × Nat} {t : Nat}
    (h : lookupTag l k = some t) : (k, t) ∈ l := by
  induction l with
  | nil => simp [lookupTag] at h
  | cons e rest ih =>
    rw [lookupTag] at h
    by_cases he : e.1 = k
    · rw [if_pos he] at h
      have ht : e.2 = t := by injection h
      have he' : e = (k, t) := by
        cases e
        simp only [Prod.mk.injEq]
        exact ⟨he, ht⟩
      rw [← he']
      exact List.mem_cons_self _ _
    · rw [if_neg he] at h
      exact List.mem_cons_of_mem _ (ih h)

theorem lookupTag_eq_none {l : List ((Nat × Nat) × Nat)} {k : Nat × Nat}
    (h : lookupTag l k = none) : ∀ e ∈ l, e.1 ≠ k := by
  induction l with
  | nil => simp
  | cons e rest ih =>
    rw [lookupTag] at h
    by_cases he : e.1 = k
    · simp [he] at h
    · simp only [if_neg he] at h
      intro e' he'
      rcases List.mem_cons.mp he' with rfl | hmem
      · exact he
      · exact ih h e' hmem

theorem pairwise_tag_injective {l : List ((Nat × Nat) × Nat)}
    (hpw : l.Pairwise (fun a b => a.1 ≠ b.1 ∧ a.2 ≠ b.2))
    {k k' : Nat × Nat} {t : Nat} (hm : (k, t) ∈ l) (hm' : (k', t) ∈ l) :
    k = k' := by
  induction l with
  | nil => simp at hm
  | cons e rest ih =>
    rcases List.pairwise_cons.mp hpw with ⟨hhead, htail⟩
    rcases List.mem_cons.mp hm with h1 | h1 <;>
      rcases List.mem_cons.mp hm' with h2 | h2
    · have := h1.trans h2.symm
      exact (Prod.mk.injEq _ _ _ _ ▸ this).1
    · have hne := (hhead _ h2).2
      rw [← h1] at hne
      simp at hne
    · have hne := (hhead _ h1).2
      rw [← h2] at hne
      simp at hne
    · exact ih htail h1 h2

/-- In a well-formed state, the tag map is injective: two keys holding the
same tag are equal. -/
theorem WF.tag_injective {st : GenState} (hwf : WF st) {k k' : Nat × Nat}
    {t : Nat} (h : lookupTag st.devMntMap k = some t)
    (h' : lookupTag st.devMntMap k' = some t) : k = k' :=
  pairwise_tag_injective hwf.2.1 (lookupTag_mem h) (lookupTag_mem h')

theorem WF.tag_bound {st : GenState} (hwf : WF st) {k : Nat × Nat} {t : Nat}
    (h : lookupTag st.devMntMap k = some t) : 1 ≤ t ∧ t < st.nextUniqueId :=
  hwf.1 _ (lookupTag_mem h)

theorem mul_pow_lor_eq_add (m b k : Nat) (hb : b < 2 ^ k) :
    m * 2 ^ k ||| b = m * 2 ^ k + b := by
  induction k generalizing m b with
  | zero =>
    have hb0 : b = 0 := by omega
    subst hb0
    simp
  | succ k ih =>
    have hb2 : b / 2 < 2 ^ k := by
      have h2 : (2 : Nat) ^ (k + 1) = 2 * 2 ^ k := by ring
      omega
    have h1 : m * 2 ^ (k + 1) = Nat.bit false (m * 2 ^ k) := by
      simp [Nat.bit_val]
      ring
    have h2 : b = Nat.bit (decide (b % 2 = 1)) (b / 2) := by
      rcases Nat.mod_two_eq_zero_or_one b with h | h
      · simp [Nat.bit_val, h]
        omega
      · simp [Nat.bit_val, h]
        omega
    rw [h1, h2, Nat.lor_bit, ih _ _ hb2]
    rcases Nat.mod_two_eq_zero_or_one b with h | h
    · simp [Nat.bit_val, h]
      ring
    · simp [Nat.bit_val, h]
      ring

theorem shiftLeft47_lor (t b : Nat) (hb : b < 2 ^ 47) :
    t <<< 47 ||| b = t * 2 ^ 47 + b := by
  rw [Nat.shiftLeft_eq]
  exact mul_pow_lor_eq_add t b 47 hb

theorem virtual_payload_eq (t c : Nat) (ht : t ≤ 254) (hc : c ≤ MAX_HOST_INO) :
    t <<< 47 ||| (c ||| VIRTUAL_INODE_FLAG) = 2 ^ 55 + t * 2 ^ 47 + c := by
  have hc' : c < 2 ^ 47 := by
    have hM : MAX_HOST_INO = 2 ^ 47 - 1 := rfl
    omega
  have hsum : t * 2 ^ 47 + c < 2 ^ 55 := by
    have h55 : (2 : Nat) ^ 55 = 256 * 2 ^ 47 := by norm_num
    have := Nat.mul_le_mul_right (2 ^ 47) ht
    omega
  have hF : VIRTUAL_INODE_FLAG = 1 * 2 ^ 55 := by
    simp [VIRTUAL_INODE_FLAG, Nat.shiftLeft_eq]
  calc t <<< 47 ||| (c ||| VIRTUAL_INODE_FLAG)
      = (t <<< 47 ||| c) ||| VIRTUAL_INODE_FLAG := by
        rw [Nat.lor_assoc]
    _ = VIRTUAL_INODE_FLAG ||| (t * 2 ^ 47 + c) := by
        rw [shiftLeft47_lor t c hc', Nat.lor_comm]
    _ = 2 ^ 55 + t * 2 ^ 47 + c := by
        rw [hF, mul_pow_lor_eq_add 1 _ 55 hsum]
        ring

/-- Branch behaviour of the payload selection (`let inode = ...`): given the
tag bound of a well-formed state, the direct path, the overflow failure and
the virtual allocation in arithmetic form. -/
theorem allocPayload_char (st : GenState) (tag : Nat) (id : InodeId)
    (htag : tag ≤ 254) :
    (id.ino ≤ MAX_HOST_INO →
      allocPayload st tag id = (.ok (tag * 2 ^ 47 + id.ino), st)) ∧
    (MAX_HOST_INO < id.ino → MAX_HOST_INO < st.nextVirtualInode →
      allocPayload st tag id = (.error .virtualOverflow, st)) ∧
    (MAX_HOST_INO < id.ino → st.nextVirtualInode ≤ MAX_HOST_INO →
      allocPayload st tag id =
        (.ok (2 ^ 55 + tag * 2 ^ 47 + st.nextVirtualInode),
          { st with nextVirtualInode := st.nextVirtualInode + 1 })) := by
  have hM : MAX_HOST_INO = 2 ^ 47 - 1 := rfl
  have h47 : (2 : Nat) ^ 47 = 140737488355328 := by norm_num
  have h64 : (2 : Nat) ^ 64 = 18446744073709551616 := by norm_num
  refine ⟨fun hino => ?_, fun hino hovf => ?_, fun hino hok => ?_⟩
  · rw [allocPayload, if_pos hino, shiftLeft47_lor _ _ (by omega)]
  · rw [allocPayload, if_neg (by omega), if_pos hovf]
  · rw [allocPayload, if_neg (by omega), if_neg (by omega),
      virtual_payload_eq _ _ htag hok]
    have : (st.nextVirtualInode + 1) % 2 ^ 64 = st.nextVirtualInode + 1 :=
      Nat.mod_eq_of_lt (by omega)
    rw [this]

theorem allocPayload_state (st : GenState) (tag : Nat) (id : InodeId) :
    (allocPayload st tag id).2 = st ∨
    (st.nextVirtualInode ≤ MAX_HOST_INO ∧
      (allocPayload st tag id).2 =
        { st with nextVirtualInode := st.nextVirtualInode + 1 }) := by
  have hM : MAX_HOST_INO = 2 ^ 47 - 1 := rfl
  have h47 : (2 : Nat) ^ 47 = 140737488355328 := by norm_num
  have h64 : (2 : Nat) ^ 64 = 18446744073709551616 := by norm_num
  rw [allocPayload]
  split
  · exact Or.inl rfl
  · split
    · exact Or.inl rfl
    · refine Or.inr ⟨by omega, ?_⟩
      have : (st.nextVirtualInode + 1) % 2 ^ 64 = st.nextVirtualInode + 1 :=
        Nat.mod_eq_of_lt (by omega)
      rw [this]

end LibfuseFs

namespace LibfuseFs

/-- The tag obtained (or allocated) by one call, together with the state it
hands to the payload stage. -/
theorem step_tag {st : GenState} {id : InodeId} (hwf : WF st)
    (hne : ¬(lookupTag st.devMntMap (id.dev, id.mnt) = none ∧
        st.nextUniqueId = 255)) :
    ∃ t st₁, get_unique_inode st id = allocPayload st₁ t id ∧
      WF st₁ ∧ MapExtends st st₁ ∧ 1 ≤ t ∧ t ≤ 254 ∧
      st₁.nextVirtualInode = st.nextVirtualInode ∧
      lookupTag st₁.devMntMap (id.dev, id.mnt) = some t := by
  obtain ⟨hb, hpw, h1, h255, hv⟩ := hwf
  cases hlk : lookupTag st.devMntMap (id.dev, id.mnt) with
  | some tag =>
    refine ⟨tag, st, ?_, ⟨hb, hpw, h1, h255, hv⟩, MapExtends.rfl, ?_, ?_, rfl, hlk⟩
    · rw [get_unique_inode, hlk]
    · exact (hb _ (lookupTag_mem hlk)).1
    · have := (hb _ (lookupTag_mem hlk)).2
      omega
  | none =>
    have hne' : st.nextUniqueId ≠ 255 := fun h => hne ⟨hlk, h⟩
    have h28 : (2 : Nat) ^ 8 = 256 := by norm_num
    have hmod : (st.nextUniqueId + 1) % 2 ^ 8 = st.nextUniqueId + 1 :=
      Nat.mod_eq_of_lt (by omega)
    refine ⟨st.nextUniqueId,
      { st with
        devMntMap := ((id.dev, id.mnt), st.nextUniqueId) :: st.devMntMap
        nextUniqueId := (st.nextUniqueId + 1) % 2 ^ 8 }, ?_, ?_, ?_, h1,
      by omega, rfl, ?_⟩
    · rw [get_unique_inode, hlk, if_neg hne']
    · refine ⟨?_, ?_, by simp only [hmod]; omega, by simp only [hmod]; omega, hv⟩
      · intro e he
        rcases List.mem_cons.mp he with rfl | hmem
        · simp only [hmod]
          omega
        · have := hb _ hmem
          simp only [hmod]
          omega
      · refine List.pairwise_cons.mpr ⟨?_, hpw⟩
        intro e he
        refine ⟨?_, ?_⟩
        · exact fun hk => (lookupTag_eq_none hlk e he) hk.symm
        · have := hb _ he
          simp only [ne_eq]
          omega
    · intro k t hk
      rw [lookupTag]
      have hne2 : (id.dev, id.mnt) ≠ k := by
        intro hkk
        rw [← hkk] at hk
        rw [hlk] at hk
        exact Option.noConfusion hk
      rw [if_neg hne2]
      exact hk
    · rw [lookupTag, if_pos rfl]

end LibfuseFs

namespace LibfuseFs

/-- Success characterization of one `get_unique_inode` call on a well-formed
state: the returned value is `tag * 2^47 + ino` on the direct path and
`2^55 + tag * 2^47 + counter` on the virtual path, where the counter is the
pre-call `next_virtual_inode` and is bumped by exactly one. -/
theorem step_ok {st : GenState} {id : InodeId} {v : Nat} {st' : GenState}
    (hwf : WF st) (h : get_unique_inode st id = (.ok v, st')) :
    WF st' ∧ MapExtends st st' ∧
    ∃ t, lookupTag st'.devMntMap (id.dev, id.mnt) = some t ∧ 1 ≤ t ∧ t ≤ 254 ∧
      ((id.ino ≤ MAX_HOST_INO ∧ v = t * 2 ^ 47 + id.ino ∧
          st'.nextVirtualInode = st.nextVirtualInode) ∨
        (MAX_HOST_INO < id.ino ∧ st.nextVirtualInode ≤ MAX_HOST_INO ∧
          v = 2 ^ 55 + t * 2 ^ 47 + st.nextVirtualInode ∧
          st'.nextVirtualInode = st.nextVirtualInode + 1)) := by
  by_cases hbad : lookupTag st.devMntMap (id.dev, id.mnt) = none ∧
      st.nextUniqueId = 255
  · rw [get_unique_inode, hbad.1, if_pos hbad.2] at h
    exact absurd (congrArg Prod.fst h) (by simp)
  obtain ⟨t, st₁, hEq, hwf₁, hext₁, ht1, ht254, hvv, hlk₁⟩ := step_tag hwf hbad
  rw [hEq] at h
  have hchar := allocPayload_char st₁ t id ht254
  by_cases hino : id.ino ≤ MAX_HOST_INO
  · rw [hchar.1 hino] at h
    obtain ⟨hv, hst⟩ := Prod.mk.injEq _ _ _ _ ▸ h
    have hv' : v = t * 2 ^ 47 + id.ino := by injection hv with hv; omega
    subst hst
    exact ⟨hwf₁, hext₁, t, hlk₁, ht1, ht254,
      Or.inl ⟨hino, hv', hvv⟩⟩
  · push_neg at hino
    by_cases hovf : MAX_HOST_INO < st₁.nextVirtualInode
    · rw [hchar.2.1 hino hovf] at h
      exact absurd (congrArg Prod.fst h) (by simp)
    · push_neg at hovf
      rw [hchar.2.2 hino hovf] at h
      obtain ⟨hv, hst⟩ := Prod.mk.injEq _ _ _ _ ▸ h
      have hv' : v = 2 ^ 55 + t * 2 ^ 47 + st.nextVirtualInode := by
        injection hv with hv
        rw [← hvv]
        exact hv.symm
      have hcnt : st.nextVirtualInode ≤ MAX_HOST_INO := hvv ▸ hovf
      obtain ⟨hb₁, hpw₁, hn1, hn255, _⟩ := hwf₁
      refine ⟨?_, ?_, t, ?_, ht1, ht254, Or.inr ⟨hino, hcnt, hv', ?_⟩⟩
      · rw [← hst]
        refine ⟨hb₁, hpw₁, hn1, hn255, ?_⟩
        show 1 ≤ st₁.nextVirtualInode + 1
        omega
      · intro k u hk
        have := hext₁ k u hk
        rw [← hst]
        exact this
      · rw [← hst]
        exact hlk₁
      · rw [← hst]
        show st₁.nextVirtualInode + 1 = st.nextVirtualInode + 1
        omega

/-- Error characterization: a failing call leaves the virtual counter
unchanged (though it may have consumed a tag). -/
theorem step_err {st : GenState} {id : InodeId} {e : GenError} {st' : GenState}
    (hwf : WF st) (h : get_unique_inode st id = (.error e, st')) :
    WF st' ∧ MapExtends st st' ∧ st'.nextVirtualInode = st.nextVirtualInode := by
  by_cases hbad : lookupTag st.devMntMap (id.dev, id.mnt) = none ∧
      st.nextUniqueId = 255
  · rw [get_unique_inode, hbad.1, if_pos hbad.2] at h
    have hst : st = st' := congrArg Prod.snd h
    rw [← hst]
    exact ⟨hwf, MapExtends.rfl, rfl⟩
  obtain ⟨t, st₁, hEq, hwf₁, hext₁, ht1, ht254, hvv, hlk₁⟩ := step_tag hwf hbad
  rw [hEq] at h
  have hchar := allocPayload_char st₁ t id ht254
  by_cases hino : id.ino ≤ MAX_HOST_INO
  · rw [hchar.1 hino] at h
    exact absurd (congrArg Prod.fst h) (by simp)
  · push_neg at hino
    by_cases hovf : MAX_HOST_INO < st₁.nextVirtualInode
    · rw [hchar.2.1 hino hovf] at h
      have hst : st₁ = st' := congrArg Prod.snd h
      rw [← hst]
      exact ⟨hwf₁, hext₁, hvv⟩
    · push_neg at hovf
      rw [hchar.2.2 hino hovf] at h
      exact absurd (congrArg Prod.fst h) (by simp)

/-- Unconditional one-step state evolution. -/
theorem step_state {st : GenState} (id : InodeId) (hwf : WF st) :
    WF (get_unique_inode st id).2 ∧
      MapExtends st (get_unique_inode st id).2 ∧
      st.nextVirtualInode ≤ (get_unique_inode st id).2.nextVirtualInode := by
  rcases hres : get_unique_inode st id with ⟨r, st'⟩
  show WF st' ∧ MapExtends st st' ∧ st.nextVirtualInode ≤ st'.nextVirtualInode
  cases r with
  | ok v =>
    obtain ⟨hwf', hext, t, _, _, _, hdisj⟩ := step_ok hwf hres
    refine ⟨hwf', hext, ?_⟩
    rcases hdisj with ⟨_, _, hveq⟩ | ⟨_, _, _, hveq⟩ <;> omega
  | error e =>
    obtain ⟨hwf', hext, hveq⟩ := step_err hwf hres
    exact ⟨hwf', hext, le_of_eq hveq.symm⟩

/-- Whole-run state evolution. -/
theorem run_state {st : GenState} (ids : List InodeId) (hwf : WF st) :
    WF (runState st ids) ∧ MapExtends st (runState st ids) ∧
      st.nextVirtualInode ≤ (runState st ids).nextVirtualInode := by
  induction ids generalizing st with
  | nil => exact ⟨hwf, MapExtends.rfl, le_refl _⟩
  | cons id rest ih =>
    obtain ⟨hwf', hext, hmono⟩ := step_state id hwf
    obtain ⟨hwf'', hext', hmono'⟩ := ih hwf'
    exact ⟨hwf'', hext.trans hext', le_trans hmono hmono'⟩

end LibfuseFs

namespace LibfuseFs

theorem outcomes_cons (st : GenState) (id : InodeId) (rest : List InodeId) :
    outcomes st (id :: rest) =
      (id, (get_unique_inode st id).1) ::
        outcomes (get_unique_inode st id).2 rest := by
  rcases h : get_unique_inode st id with ⟨r, s⟩
  simp [outcomes, h]

theorem runState_cons (st : GenState) (id : InodeId) (rest : List InodeId) :
    runState st (id :: rest) = runState (get_unique_inode st id).2 rest := rfl

/-- Every successful outcome of a run is `tag * 2^47 + ino` (direct) or
`2^55 + tag * 2^47 + counter` (virtual) for a tag recorded in the final map,
with the counter at least the initial `next_virtual_inode`. -/
theorem outcomes_ok_char {st : GenState} (ids : List InodeId) (hwf : WF st) :
    ∀ id v, (id, Except.ok v) ∈ outcomes st ids →
      ∃ t, lookupTag (runState st ids).devMntMap (id.dev, id.mnt) = some t ∧
        1 ≤ t ∧ t ≤ 254 ∧
        ((id.ino ≤ MAX_HOST_INO ∧ v = t * 2 ^ 47 + id.ino) ∨
          (MAX_HOST_INO < id.ino ∧ ∃ c, st.nextVirtualInode ≤ c ∧
            c ≤ MAX_HOST_INO ∧ v = 2 ^ 55 + t * 2 ^ 47 + c)) := by
  induction ids generalizing st with
  | nil =>
    intro id v h
    simp [outcomes] at h
  | cons id0 rest ih =>
    intro id v h
    rw [outcomes_cons] at h
    rw [runState_cons]
    rcases List.mem_cons.mp h with hhead | htail
    · obtain ⟨hid, hr⟩ := Prod.mk.injEq _ _ _ _ ▸ hhead
      subst hid
      have hres : get_unique_inode st id = (.ok v, (get_unique_inode st id).2) := by
        rw [hr]
      obtain ⟨hwf₁, _, t, hlk, ht1, ht254, hdisj⟩ := step_ok hwf hres
      obtain ⟨_, hextF, _⟩ := run_state rest hwf₁
      refine ⟨t, hextF _ _ hlk, ht1, ht254, ?_⟩
      rcases hdisj with ⟨hino, hveq, _⟩ | ⟨hino, hcle, hveq, _⟩
      · exact Or.inl ⟨hino, hveq⟩
      · exact Or.inr ⟨hino, st.nextVirtualInode, le_refl _, hcle, hveq⟩
    · obtain ⟨hwf₁, _, hmono⟩ := step_state id0 hwf
      obtain ⟨t, hlk, ht1, ht254, hdisj⟩ := ih hwf₁ id v htail
      refine ⟨t, hlk, ht1, ht254, ?_⟩
      rcases hdisj with hdir | ⟨hino, c, hcge, hcle, hveq⟩
      · exact Or.inl hdir
      · exact Or.inr ⟨hino, c, le_trans hmono hcge, hcle, hveq⟩

/-- If the head call of a run succeeds with value `v` and some later call in
the same run also succeeds with `v`, the two calls carried the same
`InodeId`. -/
theorem head_tail_shared_eq {st st' : GenState} {id0 id : InodeId} {v : Nat}
    (hwf : WF st) (hres : get_unique_inode st id0 = (.ok v, st'))
    {rest : List InodeId}
    (hmem : (id, Except.ok v) ∈ outcomes st' rest) : id = id0 := by
  obtain ⟨hwf', _, t0, hlk0, ht01, ht0254, hdisj0⟩ := step_ok hwf hres
  obtain ⟨t, hlkF, ht1, ht254, hdisj⟩ := outcomes_ok_char rest hwf' id v hmem
  obtain ⟨hwfF, hextF, _⟩ := run_state rest hwf'
  have hlk0F : lookupTag (runState st' rest).devMntMap (id0.dev, id0.mnt) =
      some t0 := hextF _ _ hlk0
  have h47 : (2 : Nat) ^ 47 = 140737488355328 := by norm_num
  have h55 : (2 : Nat) ^ 55 = 36028797018963968 := by norm_num
  have hM : MAX_HOST_INO = 2 ^ 47 - 1 := rfl
  rcases hdisj0 with ⟨hino0, hv0, hst'v⟩ | ⟨hino0, hc0, hv0, hst'v⟩ <;>
    rcases hdisj with ⟨hino, hveq⟩ | ⟨hino, c, hcge, hcle, hveq⟩
  · have hteq : t0 = t ∧ id0.ino = id.ino := by omega
    have hlkF0 : lookupTag (runState st' rest).devMntMap (id.dev, id.mnt) =
        some t0 := by
      rw [hteq.1]
      exact hlkF
    have hkey := hwfF.tag_injective hlkF0 hlk0F
    obtain ⟨hdev, hmnt⟩ := Prod.mk.injEq _ _ _ _ ▸ hkey
    cases id
    cases id0
    simp only [InodeId.mk.injEq]
    simp only at hdev hmnt
    exact ⟨hteq.2.symm, hdev, hmnt⟩
  · omega
  · omega
  · have hcge' : st.nextVirtualInode + 1 ≤ c := hst'v ▸ hcge
    omega

/-- Across one run, two successful calls that produce the same stable inode
carried the same `InodeId`. -/
theorem gen_pair_injective {st : GenState} (hwf : WF st) (ids : List InodeId) :
    ∀ a b v, (a, Except.ok v) ∈ outcomes st ids →
      (b, Except.ok v) ∈ outcomes st ids → a = b := by
  induction ids generalizing st with
  | nil =>
    intro a b v ha _
    simp [outcomes] at ha
  | cons id0 rest ih =>
    intro a b v ha hb
    rw [outcomes_cons] at ha hb
    have hwf1 := (step_state id0 hwf).1
    rcases List.mem_cons.mp ha with ha1 | ha1 <;>
      rcases List.mem_cons.mp hb with hb1 | hb1
    · obtain ⟨haid, _⟩ := Prod.mk.injEq _ _ _ _ ▸ ha1
      obtain ⟨hbid, _⟩ := Prod.mk.injEq _ _ _ _ ▸ hb1
      rw [haid, hbid]
    · obtain ⟨haid, har⟩ := Prod.mk.injEq _ _ _ _ ▸ ha1
      have hres : get_unique_inode st id0 =
          (.ok v, (get_unique_inode st id0).2) := by rw [har]
      have := head_tail_shared_eq hwf hres hb1
      rw [haid, this]
    · obtain ⟨hbid, hbr⟩ := Prod.mk.injEq _ _ _ _ ▸ hb1
      have hres : get_unique_inode st id0 =
          (.ok v, (get_unique_inode st id0).2) := by rw [hbr]
      have := head_tail_shared_eq hwf hres ha1
      rw [hbid, this]
    · exact ih hwf1 a b v ha1 hb1

/-- Two successful calls with the same `InodeId` whose host inode fits in 47
bits (the direct path) produce the same stable inode. -/
theorem gen_direct_fun {st : GenState} (hwf : WF st) (ids : List InodeId) :
    ∀ id v w, id.ino ≤ MAX_HOST_INO →
      (id, Except.ok v) ∈ outcomes st ids →
      (id, Except.ok w) ∈ outcomes st ids → v = w := by
  intro id v w hino hv hw
  obtain ⟨t, hlkt, _, _, hdv⟩ := outcomes_ok_char ids hwf id v hv
  obtain ⟨u, hlku, _, _, hdw⟩ := outcomes_ok_char ids hwf id w hw
  have htu : t = u := by
    have h := hlkt.symm.trans hlku
    injection h
  rcases hdv with ⟨_, hveq⟩ | ⟨hbad, _⟩
  · rcases hdw with ⟨_, hweq⟩ | ⟨hbad, _⟩
    · rw [hveq, hweq, htu]
    · omega
  · omega

end LibfuseFs

namespace LibfuseFs

/-- C1 (counterexample): two calls with the same `InodeId` whose `ino` is
`2^47` (above `MAX_HOST_INO`, so on the virtual path) return two *different*
stable inodes — the virtual counter is allocated afresh on every call, so the
claimed `stable_for(a) = stable_for(b) ⇔ a = b` fails in the ⇐ direction. -/
theorem C1_virtual_path_counterexample :
    ((outcomes GenState.fresh [⟨2 ^ 47, 0, 0⟩, ⟨2 ^ 47, 0, 0⟩]).map Prod.snd =
      [Except.ok 0x80800000000001, Except.ok 0x80800000000002]) ∧
    (0x80800000000001 : Nat) ≠ 0x80800000000002 ∧
    MAX_HOST_INO < 2 ^ 47 := by decide

/-- C1 (amended): within one session (any sequence of calls on a fresh
generator), `get_unique_inode` never returns the same value for two distinct
`InodeId`s — equal successful results imply equal ids — and two successful
calls with the same `InodeId` return the same stable inode whenever that id's
`ino` is at most `2^47 − 1` (the direct path).  On the virtual path
(`ino > 2^47 − 1`) each call allocates a fresh virtual inode, so repeated
calls with the same id do *not* return the same value. -/
theorem C1_stable_inode_injective (ids : List InodeId) (a b : InodeId)
    (v w : Nat) (ha : (a, Except.ok v) ∈ outcomes GenState.fresh ids)
    (hb : (b, Except.ok w) ∈ outcomes GenState.fresh ids) :
    (v = w → a = b) ∧ (a = b → a.ino ≤ MAX_HOST_INO → v = w) := by
  constructor
  · intro hvw
    rw [← hvw] at hb
    exact gen_pair_injective WF.fresh ids a b v ha hb
  · intro hab hino
    rw [← hab] at hb
    exact gen_direct_fun WF.fresh ids a v w hino ha hb

theorem C1_stable_inode_injective_witness :
    ((0x800000000001 : Nat) = 0x800000000001 →
      (InodeId.mk 1 0 0) = InodeId.mk 1 0 0) ∧
    ((InodeId.mk 1 0 0) = InodeId.mk 1 0 0 →
      (InodeId.mk 1 0 0).ino ≤ MAX_HOST_INO →
      (0x800000000001 : Nat) = 0x800000000001) :=
  C1_stable_inode_injective [InodeId.mk 1 0 0] (InodeId.mk 1 0 0)
    (InodeId.mk 1 0 0) 0x800000000001 0x800000000001 (by decide) (by decide)

end LibfuseFs

namespace LibfuseFs

/-- C2: the concrete encodings of scenario S1 (`{dev:0,mnt:0,ino:1} ↦
0x00800000000001`, then `{dev:0,mnt:1,ino:1} ↦ 0x01000000000001`, then
`{dev:0,mnt:1,ino:2} ↦ 0x01000000000002`) and S2 (first call with
`{dev:MAX,mnt:MAX,ino:2^47} ↦ 0x80800000000001`), and in general every
successful result is `(tag << 47) | payload` — arithmetically
`tag * 2^47 + payload` plus `2^55` exactly when `ino > 2^47 − 1`, i.e. bit 55
of the result is set iff the id took the virtual path. -/
theorem C2_stable_inode_encoding :
    ((outcomes GenState.fresh [⟨1, 0, 0⟩, ⟨1, 0, 1⟩, ⟨2, 0, 1⟩]).map Prod.snd =
      [Except.ok 0x00800000000001, Except.ok 0x01000000000001,
        Except.ok 0x01000000000002]) ∧
    ((outcomes GenState.fresh
        [⟨2 ^ 47, 2 ^ 64 - 1, 2 ^ 64 - 1⟩]).map Prod.snd =
      [Except.ok 0x80800000000001]) ∧
    ∀ st id v st', WF st → get_unique_inode st id = (.ok v, st') →
      ∃ t p, lookupTag st'.devMntMap (id.dev, id.mnt) = some t ∧
        1 ≤ t ∧ t ≤ 254 ∧ p ≤ MAX_HOST_INO ∧
        (id.ino ≤ MAX_HOST_INO → p = id.ino) ∧
        v = (if id.ino ≤ MAX_HOST_INO then t * 2 ^ 47 + p
          else 2 ^ 55 + t * 2 ^ 47 + p) ∧
        (Nat.testBit v 55 = true ↔ MAX_HOST_INO < id.ino) := by
  refine ⟨by decide, by decide, ?_⟩
  intro st id v st' hwf hres
  have h47 : (2 : Nat) ^ 47 = 140737488355328 := by norm_num
  have h55 : (2 : Nat) ^ 55 = 36028797018963968 := by norm_num
  have hM : MAX_HOST_INO = 2 ^ 47 - 1 := rfl
  obtain ⟨_, _, t, hlk, ht1, ht254, hdisj⟩ := step_ok hwf hres
  rcases hdisj with ⟨hino, hveq, _⟩ | ⟨hino, hcle, hveq, _⟩
  · refine ⟨t, id.ino, hlk, ht1, ht254, hino, fun _ => rfl, ?_, ?_⟩
    · rw [if_pos hino]
      exact hveq
    · have hlt : v < 2 ^ 55 := by omega
      rw [Nat.testBit_eq_false_of_lt hlt]
      simp
      omega
  · refine ⟨t, st.nextVirtualInode, hlk, ht1, ht254, hcle,
      fun hc => absurd hc (by omega), ?_, ?_⟩
    · rw [if_neg (by omega)]
      exact hveq
    · have hdiv : v / 2 ^ 55 = 1 := by omega
      rw [Nat.testBit_to_div_mod, hdiv]
      simp
      omega

theorem C2_stable_inode_encoding_witness :
    ∃ t p,
      lookupTag (GenState.mk [((0, 0), 1)] 2 1).devMntMap
          ((InodeId.mk 1 0 0).dev, (InodeId.mk 1 0 0).mnt) = some t ∧
        1 ≤ t ∧ t ≤ 254 ∧ p ≤ MAX_HOST_INO ∧
        ((InodeId.mk 1 0 0).ino ≤ MAX_HOST_INO → p = (InodeId.mk 1 0 0).ino) ∧
        0x800000000001 =
          (if (InodeId.mk 1 0 0).ino ≤ MAX_HOST_INO then t * 2 ^ 47 + p
            else 2 ^ 55 + t * 2 ^ 47 + p) ∧
        (Nat.testBit 0x800000000001 55 = true ↔
          MAX_HOST_INO < (InodeId.mk 1 0 0).ino) :=
  C2_stable_inode_encoding.2.2 GenState.fresh (InodeId.mk 1 0 0)
    0x800000000001 (GenState.mk [((0, 0), 1)] 2 1) (by decide) (by decide)

/-- Failure condition of the payload stage: it errors exactly when the id
is on the virtual path and the virtual counter is exhausted. -/
theorem allocPayload_err_iff (st : GenState) (tag : Nat) (id : InodeId) :
    (∃ e st', allocPayload st tag id = (Except.error e, st')) ↔
      (MAX_HOST_INO < id.ino ∧ MAX_HOST_INO < st.nextVirtualInode) := by
  by_cases hino : id.ino ≤ MAX_HOST_INO
  · simp only [allocPayload, if_pos hino]
    constructor
    · rintro ⟨e, st', h⟩
      exact absurd (congrArg Prod.fst h) (by simp)
    · rintro ⟨h1, _⟩
      omega
  · push_neg at hino
    have hcond : ¬ id.ino ≤ MAX_HOST_INO := by omega
    by_cases hovf : MAX_HOST_INO < st.nextVirtualInode
    · simp only [allocPayload, if_neg hcond, if_pos hovf]
      constructor
      · intro _
        exact ⟨hino, hovf⟩
      · intro _
        exact ⟨.virtualOverflow, st, rfl⟩
    · simp only [allocPayload, if_neg hcond, if_neg hovf]
      constructor
      · rintro ⟨e, st', h⟩
        exact absurd (congrArg Prod.fst h) (by simp)
      · rintro ⟨_, h2⟩
        exact absurd h2 hovf

set_option maxRecDepth 100000 in
set_option maxHeartbeats 1000000 in
/-- C3 (counterexample): after 254 distinct `(dev, mnt)` pairs have consumed
all tags, the 255th distinct pair fails — but the error is the generic
`io::Error::other(..)` (kind `Other`, `raw_os_error() = None`), not the
`NoSpace`/`ENOSPC` error the claim states. -/
theorem C3_error_not_enospc_counterexample :
    ((outcomes GenState.fresh
        ((List.range 255).map (fun i => ⟨1, i, 0⟩))).drop 254 =
      [(⟨1, 254, 0⟩, Except.error GenError.tagOverflow)]) ∧
    GenError.rawOsError GenError.tagOverflow ≠ some ENOSPC := by decide

/-- C3 (amended): `get_unique_inode` fails exactly when a previously unseen
`(dev, mnt)` pair would need a mount tag beyond 254 (`next_unique_id` has
reached 255), or when an ino above `2^47 − 1` would need a virtual counter
value exceeding `2^47 − 1`; in both failure cases the error returned is a
generic `io::Error::other` carrying no OS errno (kind `Other`), not
`NoSpace`/`ENOSPC`. -/
theorem C3_failure_characterization (st : GenState) (id : InodeId) :
    ((∃ e st', get_unique_inode st id = (Except.error e, st')) ↔
      ((lookupTag st.devMntMap (id.dev, id.mnt) = none ∧
          st.nextUniqueId = 255) ∨
        (MAX_HOST_INO < id.ino ∧ MAX_HOST_INO < st.nextVirtualInode))) ∧
    ∀ e st', get_unique_inode st id = (Except.error e, st') →
      GenError.rawOsError e = none := by
  refine ⟨?_, fun e st' _ => rfl⟩
  cases hlk : lookupTag st.devMntMap (id.dev, id.mnt) with
  | some tag =>
    simp only [get_unique_inode, hlk]
    rw [allocPayload_err_iff]
    constructor
    · exact Or.inr
    · rintro (⟨hnone, _⟩ | h)
      · exact Option.noConfusion hnone
      · exact h
  | none =>
    by_cases h255 : st.nextUniqueId = 255
    · simp only [get_unique_inode, hlk, if_pos h255]
      constructor
      · intro _
        exact Or.inl ⟨trivial, h255⟩
      · intro _
        exact ⟨.tagOverflow, st, rfl⟩
    · simp only [get_unique_inode, hlk, if_neg h255]
      rw [allocPayload_err_iff]
      constructor
      · rintro ⟨hino, hovf⟩
        exact Or.inr ⟨hino, hovf⟩
      · rintro (⟨_, habs⟩ | ⟨hino, hovf⟩)
        · exact absurd habs h255
        · exact ⟨hino, hovf⟩

theorem C3_failure_characterization_witness :
    ∃ e st', get_unique_inode ⟨[], 255, 1⟩ ⟨1, 0, 0⟩ = (Except.error e, st') :=
  (C3_failure_characterization ⟨[], 255, 1⟩ ⟨1, 0, 0⟩).1.mpr
    (Or.inl (by decide))

end LibfuseFs

namespace LibfuseFs

/-! ## Path-component validation (`passthrough/util.rs`) -/

/-- Linux `EINVAL`. -/
def EINVAL : Nat := 22

/-- `CURRENT_DIR_CSTR` from `passthrough/mod.rs` (not under `src/`).
Modelled from the spec: the engine rejects exactly the names `.` and `..`
("validate name: reject empty, `/`, `.`, `..`"), so the constant is the
NUL-terminated byte string `[46, 0]` (dot then NUL), matched by
`starts_with` against `to_bytes_with_nul`. -/
def CURRENT_DIR_CSTR : List Nat := [46, 0]

/-- `PARENT_DIR_CSTR` from `passthrough/mod.rs` (not under `src/`).
Modelled from the spec: dot-dot with the NUL terminator, `[46, 46, 0]`. -/
def PARENT_DIR_CSTR : List Nat := [46, 46, 0]

/-- `SLASH_ASCII`: ASCII for slash. -/
def SLASH_ASCII : Nat := 47

/-- `CStr::to_bytes_with_nul`: a path component is a list of non-NUL bytes;
the terminator is appended. -/
def toBytesWithNul (name : List Nat) : List Nat := name ++ [0]

/-- `is_dot_or_dotdot` from `passthrough/util.rs`. -/
def is_dot_or_dotdot (name : List Nat) : Bool :=
  CURRENT_DIR_CSTR.isPrefixOf (toBytesWithNul name) ||
    PARENT_DIR_CSTR.isPrefixOf (toBytesWithNul name)

/-- `is_safe_path_component` from `passthrough/util.rs`. -/
def is_safe_path_component (name : List Nat) : Bool :=
  if (toBytesWithNul name).contains SLASH_ASCII then false
  else ! is_dot_or_dotdot name

/-- `validate_path_component` from `passthrough/util.rs`: `Ok(())` for a safe
component, `EINVAL` otherwise. -/
def validate_path_component (name : List Nat) : Except Nat Unit :=
  if is_safe_path_component name then .ok () else .error EINVAL

theorem dot_prefix_iff (name : List Nat) (hnul : 0 ∉ name) :
    CURRENT_DIR_CSTR.isPrefixOf (toBytesWithNul name) = true ↔ name = [46] := by
  cases name with
  | nil => simp [CURRENT_DIR_CSTR, toBytesWithNul, List.isPrefixOf]
  | cons a rest =>
    cases rest with
    | nil =>
      simp only [CURRENT_DIR_CSTR, toBytesWithNul, List.isPrefixOf,
        List.cons_append, List.nil_append, Bool.and_eq_true, beq_iff_eq,
        List.cons.injEq, and_true]
      omega
    | cons b r2 =>
      have hb : b ≠ 0 := by
        intro h
        exact hnul (by simp [h])
      simp [CURRENT_DIR_CSTR, toBytesWithNul, List.isPrefixOf, hb]
      omega

theorem dotdot_prefix_iff (name : List Nat) (hnul : 0 ∉ name) :
    PARENT_DIR_CSTR.isPrefixOf (toBytesWithNul name) = true ↔
      name = [46, 46] := by
  cases name with
  | nil => simp [PARENT_DIR_CSTR, toBytesWithNul, List.isPrefixOf]
  | cons a rest =>
    cases rest with
    | nil => simp [PARENT_DIR_CSTR, toBytesWithNul, List.isPrefixOf]
    | cons b r2 =>
      cases r2 with
      | nil =>
        simp [PARENT_DIR_CSTR, toBytesWithNul, List.isPrefixOf]
        omega
      | cons c r3 =>
        have hc : c ≠ 0 := by
          intro h
          exact hnul (by simp [h])
        simp [PARENT_DIR_CSTR, toBytesWithNul, List.isPrefixOf, hc]
        omega

theorem contains_slash_iff (name : List Nat) :
    (toBytesWithNul name).contains SLASH_ASCII = true ↔ SLASH_ASCII ∈ name := by
  simp [toBytesWithNul, SLASH_ASCII, List.contains]

/-- C4 (counterexample): the empty path component is *accepted* by
`validate_path_component` — its NUL-terminated form `[0]` neither contains a
slash nor starts with `[46, 0]` or `[46, 46, 0]`, so `is_safe_path_component`
returns true and no
`EINVAL` is produced, contrary to the claim that the empty name is
rejected. -/
theorem C4_empty_name_counterexample :
    validate_path_component [] = Except.ok () := by decide

/-- C4 (amended): for every NUL-free path-component name,
`validate_path_component` returns `EINVAL` exactly when the name is `"."`,
`".."`, or contains a `'/'` byte, and returns `Ok(())` otherwise; the empty
name is accepted, not rejected. -/
theorem C4_validate_path_component (name : List Nat) (hnul : 0 ∉ name) :
    (validate_path_component name = Except.error EINVAL ↔
      (name = [46] ∨ name = [46, 46] ∨ SLASH_ASCII ∈ name)) ∧
    (validate_path_component name = Except.ok () ↔
      ¬(name = [46] ∨ name = [46, 46] ∨ SLASH_ASCII ∈ name)) := by
  have hsafe : is_safe_path_component name = true ↔
      ¬(name = [46] ∨ name = [46, 46] ∨ SLASH_ASCII ∈ name) := by
    rw [is_safe_path_component]
    by_cases hsl : (toBytesWithNul name).contains SLASH_ASCII = true
    · rw [if_pos hsl]
      have := (contains_slash_iff name).mp hsl
      simp [this]
    · rw [if_neg hsl]
      have hsl' : SLASH_ASCII ∉ name := fun h =>
        hsl ((contains_slash_iff name).mpr h)
      simp only [is_dot_or_dotdot, Bool.not_eq_true', Bool.or_eq_false_iff]
      constructor
      · rintro ⟨h1, h2⟩
        rintro (h | h | h)
        · exact absurd ((dot_prefix_iff name hnul).mpr h) (by simp [h1])
        · exact absurd ((dotdot_prefix_iff name hnul).mpr h) (by simp [h2])
        · exact hsl' h
      · intro h
        push_neg at h
        constructor
        · rw [← Bool.not_eq_true]
          intro hp
          exact h.1 ((dot_prefix_iff name hnul).mp hp)
        · rw [← Bool.not_eq_true]
          intro hp
          exact h.2.1 ((dotdot_prefix_iff name hnul).mp hp)
  constructor
  · rw [validate_path_component]
    by_cases h : is_safe_path_component name = true
    · rw [if_pos h]
      simp only [hsafe] at h
      constructor
      · intro habs
        exact Except.noConfusion habs
      · intro hc
        exact absurd hc h
    · rw [if_neg h]
      simp only [hsafe] at h
      push_neg at h
      simp [h]
  · rw [validate_path_component]
    by_cases h : is_safe_path_component name = true
    · rw [if_pos h]
      simp only [hsafe] at h
      simp [h]
    · rw [if_neg h]
      simp only [hsafe] at h
      simp only [not_not] at h
      constructor
      · intro habs
        exact Except.noConfusion habs
      · intro hc
        exact absurd h hc

theorem C4_validate_path_component_witness :
    ((validate_path_component [97] = Except.error EINVAL ↔
      ([97] = [46] ∨ [97] = [46, 46] ∨ SLASH_ASCII ∈ [97])) ∧
    (validate_path_component [97] = Except.ok () ↔
      ¬([97] = [46] ∨ [97] = [46, 46] ∨ SLASH_ASCII ∈ [97]))) :=
  C4_validate_path_component [97] (by decide)

end LibfuseFs


namespace LibfuseFs

/-! ## File-handle ordering (`passthrough/file_handle.rs`) -/

/-- `CFileHandle` (via `CFileHandleInner`): `handle_bytes: c_uint`,
`handle_type: c_int`, and the flexible `f_handle` byte array (a `c_char`
buffer). -/
structure CFileHandle where
  handle_bytes : Nat
  handle_type : Int
  f_handle : List Int
deriving DecidableEq, Repr

/-- Rust `<[T]>::cmp`: lexicographic element-wise comparison, a strict
prefix comparing less. -/
def sliceCmp : List Int → List Int → Ordering
  | [], [] => .eq
  | [], _ :: _ => .lt
  | _ :: _, [] => .gt
  | a :: xs, b :: ys =>
    match compare a b with
    | .eq => sliceCmp xs ys
    | o => o

theorem sliceCmp_cons (a b : Int) (xs ys : List Int) :
    sliceCmp (a :: xs) (b :: ys) =
      if a < b then Ordering.lt
      else if b < a then Ordering.gt
      else sliceCmp xs ys := by
  rw [sliceCmp]
  rcases lt_trichotomy a b with h | h | h
  · rw [compare_lt_iff_lt.mpr h, if_pos h]
  · subst h
    rw [compare_eq_iff_eq.mpr rfl, if_neg (lt_irrefl a), if_neg (lt_irrefl a)]
  · rw [compare_gt_iff_gt.mpr h, if_neg (by omega), if_pos h]

theorem sliceCmp_eq_iff (xs ys : List Int) :
    sliceCmp xs ys = Ordering.eq ↔ xs = ys := by
  induction xs generalizing ys with
  | nil => cases ys <;> simp [sliceCmp]
  | cons a xs ih =>
    cases ys with
    | nil => simp [sliceCmp]
    | cons b ys =>
      rw [sliceCmp_cons]
      by_cases h1 : a < b
      · rw [if_pos h1]
        simp only [List.cons.injEq]
        constructor
        · intro h
          exact Ordering.noConfusion h
        · rintro ⟨h, _⟩
          omega
      · rw [if_neg h1]
        by_cases h2 : b < a
        · rw [if_pos h2]
          simp only [List.cons.injEq]
          constructor
          · intro h
            exact Ordering.noConfusion h
          · rintro ⟨h, _⟩
            omega
        · rw [if_neg h2]
          have hab : a = b := by omega
          simp [ih, hab]

theorem sliceCmp_swap (xs ys : List Int) :
    sliceCmp xs ys = (sliceCmp ys xs).swap := by
  induction xs generalizing ys with
  | nil => cases ys <;> simp [sliceCmp, Ordering.swap]
  | cons a xs ih =>
    cases ys with
    | nil => simp [sliceCmp, Ordering.swap]
    | cons b ys =>
      rw [sliceCmp_cons, sliceCmp_cons]
      rcases lt_trichotomy a b with h | h | h
      · have hba : ¬ b < a := by omega
        rw [if_pos h, if_neg hba, if_pos h]
        rfl
      · subst h
        rw [if_neg (lt_irrefl a), if_neg (lt_irrefl a), if_neg (lt_irrefl a),
          if_neg (lt_irrefl a)]
        exact ih ys
      · have hab : ¬ a < b := by omega
        rw [if_neg hab, if_pos h, if_pos h]
        rfl

theorem sliceCmp_lt_trans {xs ys zs : List Int}
    (h1 : sliceCmp xs ys = Ordering.lt)
    (h2 : sliceCmp ys zs = Ordering.lt) :
    sliceCmp xs zs = Ordering.lt := by
  induction xs generalizing ys zs with
  | nil =>
    cases ys with
    | nil => exact absurd h1 (by simp [sliceCmp])
    | cons b ys =>
      cases zs with
      | nil => exact absurd h2 (by simp [sliceCmp])
      | cons c zs => simp [sliceCmp]
  | cons a xs ih =>
    cases ys with
    | nil => exact absurd h1 (by simp [sliceCmp])
    | cons b ys =>
      cases zs with
      | nil => exact absurd h2 (by simp [sliceCmp])
      | cons c zs =>
        rw [sliceCmp_cons] at h1 h2 ⊢
        by_cases hab : a < b
        · rw [if_pos hab] at h1
          by_cases hbc : b < c
          · rw [if_pos (by omega)]
          · rw [if_neg hbc] at h2
            by_cases hcb : c < b
            · rw [if_pos hcb] at h2
              exact absurd h2 (by decide)
            · have : b = c := by omega
              rw [if_pos (by omega)]
        · rw [if_neg hab] at h1
          by_cases hba : b < a
          · rw [if_pos hba] at h1
            exact absurd h1 (by decide)
          · rw [if_neg hba] at h1
            have hab' : a = b := by omega
            by_cases hbc : b < c
            · rw [if_pos (by omega)]
            · rw [if_neg hbc] at h2
              by_cases hcb : c < b
              · rw [if_pos hcb] at h2
                exact absurd h2 (by decide)
              · rw [if_neg hcb] at h2
                rw [if_neg (by omega), if_neg (by omega)]
                exact ih h1 h2

end LibfuseFs

namespace LibfuseFs

/-- `CFileHandle::cmp`: compare `handle_bytes`, then `handle_type`, then the
first `handle_bytes` entries of `f_handle` (`as_slice(length)`).  The
source's pointer-equality fast path (returning `Equal` when both flexible
arrays share an address) is omitted: equal pointers imply equal slices, so
the slice comparison returns `Equal` there as well. -/
def cfhCmp (a b : CFileHandle) : Ordering :=
  if a.handle_bytes ≠ b.handle_bytes then compare a.handle_bytes b.handle_bytes
  else
    let length := a.handle_bytes
    if a.handle_type ≠ b.handle_type then compare a.handle_type b.handle_type
    else sliceCmp (a.f_handle.take length) (b.f_handle.take length)

/-- `FileHandle`: `mnt_id: u64` plus the `CFileHandle`. -/
structure FileHandle where
  mnt_id : Nat
  handle : CFileHandle
deriving Repr

/-- The `derive(Ord)` on `FileHandle`: lexicographic on
`(mnt_id, handle)`, the handle compared by `CFileHandle::cmp`. -/
def fhCmp (x y : FileHandle) : Ordering :=
  match compare x.mnt_id y.mnt_id with
  | .eq => cfhCmp x.handle y.handle
  | o => o

/-- The `derive(PartialEq)` on `FileHandle`: field-wise equality, where
`CFileHandle`'s manual `PartialEq` is `cmp(..) == Ordering::Equal`. -/
def fhEq (x y : FileHandle) : Bool :=
  (x.mnt_id == y.mnt_id) && (cfhCmp x.handle y.handle == Ordering.eq)

theorem then_lt_iff {o p : Ordering} :
    o.then p = Ordering.lt ↔ o = Ordering.lt ∨ (o = Ordering.eq ∧ p = Ordering.lt) := by
  cases o <;> simp [Ordering.then]

theorem then_eq_iff {o p : Ordering} :
    o.then p = Ordering.eq ↔ o = Ordering.eq ∧ p = Ordering.eq := by
  cases o <;> simp [Ordering.then]

theorem then_of_ne_eq {o : Ordering} (p : Ordering) (h : o ≠ Ordering.eq) :
    o.then p = o := by
  cases o
  · rfl
  · exact absurd rfl h
  · rfl

theorem cfhCmp_then (a b : CFileHandle) :
    cfhCmp a b = (compare a.handle_bytes b.handle_bytes).then
      ((compare a.handle_type b.handle_type).then
        (sliceCmp (a.f_handle.take a.handle_bytes)
          (b.f_handle.take a.handle_bytes))) := by
  simp only [cfhCmp]
  by_cases hb : a.handle_bytes = b.handle_bytes
  · rw [if_neg (not_not_intro hb), compare_eq_iff_eq.mpr hb]
    by_cases ht : a.handle_type = b.handle_type
    · rw [if_neg (not_not_intro ht), compare_eq_iff_eq.mpr ht]
      rfl
    · rw [if_pos ht]
      have hne : compare a.handle_type b.handle_type ≠ Ordering.eq :=
        fun h => ht (compare_eq_iff_eq.mp h)
      rw [then_of_ne_eq _ hne]
      rfl
  · rw [if_pos hb]
    have hne : compare a.handle_bytes b.handle_bytes ≠ Ordering.eq :=
      fun h => hb (compare_eq_iff_eq.mp h)
    rw [then_of_ne_eq _ hne]

theorem fhCmp_then (x y : FileHandle) :
    fhCmp x y = (compare x.mnt_id y.mnt_id).then (cfhCmp x.handle y.handle) := by
  rw [fhCmp]
  cases compare x.mnt_id y.mnt_id <;> rfl

theorem cfhCmp_eq_iff (a b : CFileHandle) :
    cfhCmp a b = Ordering.eq ↔
      (a.handle_bytes = b.handle_bytes ∧ a.handle_type = b.handle_type ∧
        a.f_handle.take a.handle_bytes = b.f_handle.take a.handle_bytes) := by
  rw [cfhCmp_then, then_eq_iff, then_eq_iff, compare_eq_iff_eq,
    compare_eq_iff_eq, sliceCmp_eq_iff]

theorem cfhCmp_swap (a b : CFileHandle) : cfhCmp a b = (cfhCmp b a).swap := by
  rw [cfhCmp_then, cfhCmp_then]
  by_cases hb : a.handle_bytes = b.handle_bytes
  · rw [compare_eq_iff_eq.mpr hb, compare_eq_iff_eq.mpr hb.symm]
    by_cases ht : a.handle_type = b.handle_type
    · rw [compare_eq_iff_eq.mpr ht, compare_eq_iff_eq.mpr ht.symm, ← hb]
      exact sliceCmp_swap _ _
    · have h1 := (@Batteries.OrientedCmp.symm _ compare _
        b.handle_type a.handle_type).symm
      rw [h1]
      cases hc : compare b.handle_type a.handle_type with
      | eq => exact absurd (compare_eq_iff_eq.mp hc).symm ht
      | lt => rfl
      | gt => rfl
  · have h1 := (@Batteries.OrientedCmp.symm _ compare _
      b.handle_bytes a.handle_bytes).symm
    rw [h1]
    cases hc : compare b.handle_bytes a.handle_bytes with
    | eq => exact absurd (compare_eq_iff_eq.mp hc).symm hb
    | lt => rfl
    | gt => rfl

theorem cfhCmp_lt_trans {a b c : CFileHandle}
    (h1 : cfhCmp a b = Ordering.lt) (h2 : cfhCmp b c = Ordering.lt) :
    cfhCmp a c = Ordering.lt := by
  rw [cfhCmp_then] at h1 h2 ⊢
  rcases then_lt_iff.mp h1 with hby1 | ⟨hby1, hin1⟩
  · have hlt1 : a.handle_bytes < b.handle_bytes := compare_lt_iff_lt.mp hby1
    rcases then_lt_iff.mp h2 with hby2 | ⟨hby2, _⟩
    · have hlt2 : b.handle_bytes < c.handle_bytes := compare_lt_iff_lt.mp hby2
      exact then_lt_iff.mpr (Or.inl (compare_lt_iff_lt.mpr (by omega)))
    · have heq2 : b.handle_bytes = c.handle_bytes := compare_eq_iff_eq.mp hby2
      exact then_lt_iff.mpr (Or.inl (compare_lt_iff_lt.mpr (by omega)))
  · have heq1 : a.handle_bytes = b.handle_bytes := compare_eq_iff_eq.mp hby1
    rcases then_lt_iff.mp h2 with hby2 | ⟨hby2, hin2⟩
    · have hlt2 : b.handle_bytes < c.handle_bytes := compare_lt_iff_lt.mp hby2
      exact then_lt_iff.mpr (Or.inl (compare_lt_iff_lt.mpr (by omega)))
    · have heq2 : b.handle_bytes = c.handle_bytes := compare_eq_iff_eq.mp hby2
      refine then_lt_iff.mpr (Or.inr ⟨compare_eq_iff_eq.mpr (by omega), ?_⟩)
      rw [← heq1] at hin2
      rcases then_lt_iff.mp hin1 with hty1 | ⟨hty1, hsl1⟩
      · have hlt1 : a.handle_type < b.handle_type := compare_lt_iff_lt.mp hty1
        rcases then_lt_iff.mp hin2 with hty2 | ⟨hty2, _⟩
        · have hlt2 : b.handle_type < c.handle_type := compare_lt_iff_lt.mp hty2
          exact then_lt_iff.mpr (Or.inl (compare_lt_iff_lt.mpr (by omega)))
        · have hteq2 : b.handle_type = c.handle_type := compare_eq_iff_eq.mp hty2
          exact then_lt_iff.mpr (Or.inl (compare_lt_iff_lt.mpr (by omega)))
      · have hteq1 : a.handle_type = b.handle_type := compare_eq_iff_eq.mp hty1
        rcases then_lt_iff.mp hin2 with hty2 | ⟨hty2, hsl2⟩
        · have hlt2 : b.handle_type < c.handle_type := compare_lt_iff_lt.mp hty2
          exact then_lt_iff.mpr (Or.inl (compare_lt_iff_lt.mpr (by omega)))
        · have hteq2 : b.handle_type = c.handle_type := compare_eq_iff_eq.mp hty2
          refine then_lt_iff.mpr (Or.inr ⟨compare_eq_iff_eq.mpr (by omega), ?_⟩)
          exact sliceCmp_lt_trans hsl1 hsl2

end LibfuseFs

namespace LibfuseFs

theorem fhCmp_eq_iff (x y : FileHandle) :
    fhCmp x y = Ordering.eq ↔
      (x.mnt_id = y.mnt_id ∧
        x.handle.handle_bytes = y.handle.handle_bytes ∧
        x.handle.handle_type = y.handle.handle_type ∧
        x.handle.f_handle.take x.handle.handle_bytes =
          y.handle.f_handle.take x.handle.handle_bytes) := by
  rw [fhCmp_then, then_eq_iff, compare_eq_iff_eq, cfhCmp_eq_iff]

theorem fhCmp_refl (x : FileHandle) : fhCmp x x = Ordering.eq :=
  (fhCmp_eq_iff x x).mpr ⟨rfl, rfl, rfl, rfl⟩

theorem fhCmp_swap (x y : FileHandle) : fhCmp x y = (fhCmp y x).swap := by
  rw [fhCmp_then, fhCmp_then]
  by_cases hm : x.mnt_id = y.mnt_id
  · rw [compare_eq_iff_eq.mpr hm, compare_eq_iff_eq.mpr hm.symm]
    exact cfhCmp_swap _ _
  · have h1 := (@Batteries.OrientedCmp.symm _ compare _
      y.mnt_id x.mnt_id).symm
    rw [h1]
    cases hc : compare y.mnt_id x.mnt_id with
    | eq => exact absurd (compare_eq_iff_eq.mp hc).symm hm
    | lt => rfl
    | gt => rfl

theorem fhCmp_eq_trans {x y z : FileHandle} (h1 : fhCmp x y = Ordering.eq)
    (h2 : fhCmp y z = Ordering.eq) : fhCmp x z = Ordering.eq := by
  obtain ⟨hm1, hb1, ht1, hs1⟩ := (fhCmp_eq_iff x y).mp h1
  obtain ⟨hm2, hb2, ht2, hs2⟩ := (fhCmp_eq_iff y z).mp h2
  refine (fhCmp_eq_iff x z).mpr ⟨hm1.trans hm2, hb1.trans hb2, ht1.trans ht2, ?_⟩
  have hs2' : y.handle.f_handle.take x.handle.handle_bytes =
      z.handle.f_handle.take x.handle.handle_bytes := by
    rw [hb1]
    exact hs2
  exact hs1.trans hs2'

theorem fhCmp_lt_trans {x y z : FileHandle} (h1 : fhCmp x y = Ordering.lt)
    (h2 : fhCmp y z = Ordering.lt) : fhCmp x z = Ordering.lt := by
  rw [fhCmp_then] at h1 h2 ⊢
  rcases then_lt_iff.mp h1 with hm1 | ⟨hm1, hin1⟩
  · have hlt1 : x.mnt_id < y.mnt_id := compare_lt_iff_lt.mp hm1
    rcases then_lt_iff.mp h2 with hm2 | ⟨hm2, _⟩
    · have hlt2 : y.mnt_id < z.mnt_id := compare_lt_iff_lt.mp hm2
      exact then_lt_iff.mpr (Or.inl (compare_lt_iff_lt.mpr (by omega)))
    · have heq2 : y.mnt_id = z.mnt_id := compare_eq_iff_eq.mp hm2
      exact then_lt_iff.mpr (Or.inl (compare_lt_iff_lt.mpr (by omega)))
  · have heq1 : x.mnt_id = y.mnt_id := compare_eq_iff_eq.mp hm1
    rcases then_lt_iff.mp h2 with hm2 | ⟨hm2, hin2⟩
    · have hlt2 : y.mnt_id < z.mnt_id := compare_lt_iff_lt.mp hm2
      exact then_lt_iff.mpr (Or.inl (compare_lt_iff_lt.mpr (by omega)))
    · have heq2 : y.mnt_id = z.mnt_id := compare_eq_iff_eq.mp hm2
      exact then_lt_iff.mpr
        (Or.inr ⟨compare_eq_iff_eq.mpr (by omega), cfhCmp_lt_trans hin1 hin2⟩)

theorem fhEq_iff_cmp_eq (x y : FileHandle) :
    fhEq x y = true ↔ fhCmp x y = Ordering.eq := by
  rw [fhEq, fhCmp_then]
  simp only [then_eq_iff, compare_eq_iff_eq, Bool.and_eq_true, beq_iff_eq]
  refine and_congr_right fun _ => ?_
  constructor
  · intro h
    cases hc : cfhCmp x.handle y.handle <;> rw [hc] at h <;>
      first
        | rfl
        | exact Bool.noConfusion h
  · intro h
    rw [h]
    rfl

end LibfuseFs

namespace LibfuseFs

/-- C9: `FileHandle` comparison is the lexicographic total preorder on
`(mnt_id, handle_bytes, handle_type, first handle_bytes content bytes)`:
`cmp` is reflexive, antisymmetric (`cmp x y` is the swap of `cmp y x`) and
transitive (for `Equal` and for `Less`), two handles compare `Equal` iff
they agree on mount id, handle length, handle type, and byte-for-byte on
content of that length, and `PartialEq` agrees with `cmp` returning
`Equal`. -/
theorem C9_file_handle_order (x y z : FileHandle) :
    fhCmp x x = Ordering.eq ∧
    fhCmp x y = (fhCmp y x).swap ∧
    (fhCmp x y = Ordering.eq ↔
      (x.mnt_id = y.mnt_id ∧
        x.handle.handle_bytes = y.handle.handle_bytes ∧
        x.handle.handle_type = y.handle.handle_type ∧
        x.handle.f_handle.take x.handle.handle_bytes =
          y.handle.f_handle.take x.handle.handle_bytes)) ∧
    (fhCmp x y = Ordering.eq → fhCmp y z = Ordering.eq →
      fhCmp x z = Ordering.eq) ∧
    (fhCmp x y = Ordering.lt → fhCmp y z = Ordering.lt →
      fhCmp x z = Ordering.lt) ∧
    (fhEq x y = true ↔ fhCmp x y = Ordering.eq) :=
  ⟨fhCmp_refl x, fhCmp_swap x y, fhCmp_eq_iff x y,
    fun h1 h2 => fhCmp_eq_trans h1 h2, fun h1 h2 => fhCmp_lt_trans h1 h2,
    fhEq_iff_cmp_eq x y⟩

theorem C9_file_handle_order_witness :
    fhCmp (FileHandle.mk 0 (CFileHandle.mk 1 3 [0]))
        (FileHandle.mk 0 (CFileHandle.mk 2 4 [0, 0])) = Ordering.lt :=
  (C9_file_handle_order (FileHandle.mk 0 (CFileHandle.mk 1 3 [0]))
      (FileHandle.mk 0 (CFileHandle.mk 2 3 [0, 0]))
      (FileHandle.mk 0 (CFileHandle.mk 2 4 [0, 0]))).2.2.2.2.1
    (by decide) (by decide)

end LibfuseFs

namespace LibfuseFs

/-! ## filetype_from_mode (`passthrough/util.rs`) -/

/-- `rfuse3::FileType`: the seven standard file kinds. -/
inductive FileType where
  | namedPipe
  | charDevice
  | blockDevice
  | directory
  | regularFile
  | symlink
  | socket
deriving DecidableEq, Repr

/-- Linux `S_IFMT` file-type mask and the seven `S_IF*` values (octal). -/
def S_IFMT : Nat := 0o170000

def S_IFIFO : Nat := 0o010000

def S_IFCHR : Nat := 0o020000

def S_IFBLK : Nat := 0o060000

def S_IFDIR : Nat := 0o040000

def S_IFREG : Nat := 0o100000

def S_IFLNK : Nat := 0o120000

def S_IFSOCK : Nat := 0o140000

/-- `filetype_from_mode`: match on `st_mode & S_IFMT`; `none` models the
`unreachable!()` panic taken for any mode whose type bits equal none of the
seven standard values. -/
def filetype_from_mode (st_mode : Nat) : Option FileType :=
  let m := st_mode &&& S_IFMT
  if m = S_IFIFO then some .namedPipe
  else if m = S_IFCHR then some .charDevice
  else if m = S_IFBLK then some .blockDevice
  else if m = S_IFDIR then some .directory
  else if m = S_IFREG then some .regularFile
  else if m = S_IFLNK then some .symlink
  else if m = S_IFSOCK then some .socket
  else none

/-- C10: `filetype_from_mode` depends only on the `S_IFMT` bits of the mode,
maps each of the seven standard file-type values to the corresponding
`FileType`, and is partial everywhere else: every mode whose `S_IFMT` bits
equal none of the seven values — for example mode 0 — reaches the
`unreachable!()` panic (modelled as `none`) instead of returning. -/
theorem C10_filetype_from_mode (m m' : Nat)
    (hmask : m &&& S_IFMT = m' &&& S_IFMT) :
    filetype_from_mode m = filetype_from_mode m' ∧
    (m &&& S_IFMT = S_IFIFO → filetype_from_mode m = some FileType.namedPipe) ∧
    (m &&& S_IFMT = S_IFCHR → filetype_from_mode m = some FileType.charDevice) ∧
    (m &&& S_IFMT = S_IFBLK →
      filetype_from_mode m = some FileType.blockDevice) ∧
    (m &&& S_IFMT = S_IFDIR → filetype_from_mode m = some FileType.directory) ∧
    (m &&& S_IFMT = S_IFREG →
      filetype_from_mode m = some FileType.regularFile) ∧
    (m &&& S_IFMT = S_IFLNK → filetype_from_mode m = some FileType.symlink) ∧
    (m &&& S_IFMT = S_IFSOCK → filetype_from_mode m = some FileType.socket) ∧
    (m &&& S_IFMT ≠ S_IFIFO → m &&& S_IFMT ≠ S_IFCHR →
      m &&& S_IFMT ≠ S_IFBLK → m &&& S_IFMT ≠ S_IFDIR →
      m &&& S_IFMT ≠ S_IFREG → m &&& S_IFMT ≠ S_IFLNK →
      m &&& S_IFMT ≠ S_IFSOCK → filetype_from_mode m = none) ∧
    filetype_from_mode 0 = none := by
  refine ⟨?_, ?_, ?_, ?_, ?_, ?_, ?_, ?_, ?_, by decide⟩
  · simp only [filetype_from_mode, hmask]
  all_goals
    intro h
  · simp [filetype_from_mode, h, S_IFIFO, S_IFCHR, S_IFBLK, S_IFDIR, S_IFREG,
      S_IFLNK, S_IFSOCK]
  · simp [filetype_from_mode, h, S_IFIFO, S_IFCHR, S_IFBLK, S_IFDIR, S_IFREG,
      S_IFLNK, S_IFSOCK]
  · simp [filetype_from_mode, h, S_IFIFO, S_IFCHR, S_IFBLK, S_IFDIR, S_IFREG,
      S_IFLNK, S_IFSOCK]
  · simp [filetype_from_mode, h, S_IFIFO, S_IFCHR, S_IFBLK, S_IFDIR, S_IFREG,
      S_IFLNK, S_IFSOCK]
  · simp [filetype_from_mode, h, S_IFIFO, S_IFCHR, S_IFBLK, S_IFDIR, S_IFREG,
      S_IFLNK, S_IFSOCK]
  · simp [filetype_from_mode, h, S_IFIFO, S_IFCHR, S_IFBLK, S_IFDIR, S_IFREG,
      S_IFLNK, S_IFSOCK]
  · simp [filetype_from_mode, h, S_IFIFO, S_IFCHR, S_IFBLK, S_IFDIR, S_IFREG,
      S_IFLNK, S_IFSOCK]
  · intro h2 h3 h4 h5 h6 h7
    simp [filetype_from_mode, h, h2, h3, h4, h5, h6, h7]

theorem C10_filetype_from_mode_witness :
    filetype_from_mode 33188 = some FileType.regularFile :=
  (C10_filetype_from_mode 33188 33188 rfl).2.2.2.2.2.1 (by decide)

end LibfuseFs

namespace LibfuseFs

/-! ## FileHandle::from_name_at (`passthrough/file_handle.rs`) -/

/-- Linux `EOVERFLOW`. -/
def EOVERFLOW : Nat := 75

/-- Linux `EOPNOTSUPP`. -/
def EOPNOTSUPP : Nat := 95

/-- `MAX_HANDLE_SIZE = 128`, the FAM wrapper's capacity bound. -/
def MAX_HANDLE_SIZE : Nat := 128

/-- Outcome of one `name_to_handle_at` syscall: any non-`-1` return
(success, carrying the mount id, handle type and handle bytes the kernel
wrote), or `-1` with an errno. -/
inductive NthaResult where
  | success (mntId : Int) (htype : Int) (bytes : List Int)
  | fail (errno : Nat)
deriving DecidableEq, Repr

/-- The `io::Error` values `from_name_at` can produce. -/
inductive FnaError where
  /-- `io::Error::from(io::ErrorKind::InvalidData)`: the first call
  unexpectedly succeeded. -/
  | invalidData
  /-- `io::Error::last_os_error()` with the given errno. -/
  | osError (errno : Nat)
deriving DecidableEq, Repr

/-- Host oracle for `from_name_at`: the outcome of the first
`name_to_handle_at` call (zero-sized buffer), the `handle_bytes` value the
kernel wrote during it, and the outcome of a further call as a function of
the buffer size passed. -/
structure NthaHost where
  call1 : NthaResult
  reported : Nat
  call2 : Nat → NthaResult

inductive FnaOutcome where
  /-- `CFileHandleWrapper::new(needed).unwrap()` aborts when the required
  size exceeds `MAX_HANDLE_SIZE`. -/
  | panics
  | err (e : FnaError)
  | okNone
  | okSome (fh : FileHandle)
deriving Repr

/-- `FileHandle::from_name_at` (the linux implementation): the first call
uses a zero-sized handle buffer; `-1`/`EOVERFLOW` yields the required size,
`-1`/`EOPNOTSUPP` returns `Ok(None)`, any other `-1` errno is returned, and
a non-`-1` return becomes `InvalidData`.  The second call uses a buffer of
exactly the reported size (`mount_id as MountId` is the `i32 → u64` cast).
The returned list records the buffer sizes passed to `name_to_handle_at`. -/
def from_name_at (h : NthaHost) : FnaOutcome × List Nat :=
  match h.call1 with
  | .success _ _ _ => (.err .invalidData, [0])
  | .fail e =>
    if e = EOVERFLOW then
      let needed := h.reported
      if MAX_HANDLE_SIZE < needed then (.panics, [0])
      else
        match h.call2 needed with
        | .fail e2 => (.err (.osError e2), [0, needed])
        | .success mntId htype bytes =>
          (.okSome ⟨(mntId % (2 ^ 64 : Int)).toNat, ⟨needed, htype, bytes⟩⟩,
            [0, needed])
    else if e = EOPNOTSUPP then (.okNone, [0])
    else (.err (.osError e), [0])

/-- C5: `from_name_at` performs the two-call size-discovery sequence — the
first call with a zero-byte buffer must fail with `EOVERFLOW` and yields the
required size, and the second call passes a buffer of exactly that size; it
returns `Ok(None)` exactly when the host reports `EOPNOTSUPP`; any other
error of the first call, and an unexpected success of the first call, yield
an `Err`. -/
theorem C5_from_name_at (h : NthaHost) :
    ((from_name_at h).1 = FnaOutcome.okNone ↔
      h.call1 = NthaResult.fail EOPNOTSUPP) ∧
    (∀ m t bs, h.call1 = NthaResult.success m t bs →
      from_name_at h = (FnaOutcome.err FnaError.invalidData, [0])) ∧
    (∀ e, h.call1 = NthaResult.fail e → e ≠ EOVERFLOW → e ≠ EOPNOTSUPP →
      from_name_at h = (FnaOutcome.err (FnaError.osError e), [0])) ∧
    (h.call1 = NthaResult.fail EOVERFLOW → h.reported ≤ MAX_HANDLE_SIZE →
      (from_name_at h).2 = [0, h.reported] ∧
      (∀ e2, h.call2 h.reported = NthaResult.fail e2 →
        (from_name_at h).1 = FnaOutcome.err (FnaError.osError e2)) ∧
      (∀ m t bs, h.call2 h.reported = NthaResult.success m t bs →
        (from_name_at h).1 =
          FnaOutcome.okSome ⟨(m % (2 ^ 64 : Int)).toNat, ⟨h.reported, t, bs⟩⟩)) := by
  refine ⟨?_, ?_, ?_, ?_⟩
  · cases hc : h.call1 with
    | success m t bs =>
      simp [from_name_at, hc]
    | fail e =>
      by_cases he : e = EOVERFLOW
      · subst he
        simp only [from_name_at, hc, if_pos rfl]
        constructor
        · by_cases hbig : MAX_HANDLE_SIZE < h.reported
          · rw [if_pos hbig]
            intro habs
            exact absurd habs (by simp)
          · rw [if_neg hbig]
            cases h.call2 h.reported <;> simp
        · intro habs
          exact absurd habs (by decide)
      · by_cases hs : e = EOPNOTSUPP
        · subst hs
          simp [from_name_at, hc, he]
        · simp [from_name_at, hc, he, hs]
  · intro m t bs hc
    simp [from_name_at, hc]
  · intro e hc he hs
    simp [from_name_at, hc, he, hs]
  · intro hc hsize
    have hbig : ¬ MAX_HANDLE_SIZE < h.reported := by omega
    cases h2 : h.call2 h.reported with
    | fail e2 =>
      refine ⟨?_, ?_, ?_⟩
      · simp [from_name_at, hc, hbig, h2]
      · intro e2' h2'
        have he22 : e2 = e2' := by injection h2'
        subst he22
        simp [from_name_at, hc, hbig, h2]
      · intro m t bs h2'
        exact NthaResult.noConfusion h2'
    | success m t bs =>
      refine ⟨?_, ?_, ?_⟩
      · simp [from_name_at, hc, hbig, h2]
      · intro e2' h2'
        exact NthaResult.noConfusion h2'
      · intro m' t' bs' h2'
        obtain ⟨hm, ht, hbs⟩ := NthaResult.success.inj h2'
        subst hm
        subst ht
        subst hbs
        simp [from_name_at, hc, hbig, h2]

theorem C5_from_name_at_witness :
    (from_name_at ⟨NthaResult.fail 95, 0, fun _ => NthaResult.fail 0⟩).1 =
      FnaOutcome.okNone :=
  (C5_from_name_at ⟨NthaResult.fail 95, 0, fun _ => NthaResult.fail 0⟩).1.mpr
    (by decide)

end LibfuseFs

namespace LibfuseFs

/-! ## BindMountManager::do_unmount (`util/bind_mount.rs`) -/

/-- Linux `ENOENT`. -/
def ENOENT : Nat := 2

/-- Linux `EBUSY`. -/
def EBUSY : Nat := 16

/-- `BindMountManager::do_unmount`, as a function of the host outcomes of
the plain `umount` call and (when reached) the `umount2(.., MNT_DETACH)`
call; the boolean records whether the detach call was made. -/
def do_unmount (umountRes : Except Nat Unit)
    (umount2Res : Except Nat Unit) : Except Nat Unit × Bool :=
  match umountRes with
  | .ok _ => (.ok (), false)
  | .error e =>
    if e = ENOENT then (.ok (), false)
    else if e = EINVAL then (.ok (), false)
    else if e = EBUSY then
      match umount2Res with
      | .ok _ => (.ok (), true)
      | .error e2 => (.error e2, true)
    else (.error e, false)

/-- C7: `do_unmount` first attempts the plain `umount`; on `EBUSY` it
escalates to the detach (`MNT_DETACH`) unmount and returns that call's
result; on `ENOENT` (absent target) and `EINVAL` (not a mount point) it
succeeds silently; every other `umount` error is propagated; and the detach
call is made exactly when the plain call failed with `EBUSY`. -/
theorem C7_do_unmount (r1 r2 : Except Nat Unit) :
    (do_unmount (Except.ok ()) r2 = (Except.ok (), false)) ∧
    (do_unmount (Except.error ENOENT) r2 = (Except.ok (), false)) ∧
    (do_unmount (Except.error EINVAL) r2 = (Except.ok (), false)) ∧
    (do_unmount (Except.error EBUSY) (Except.ok ()) = (Except.ok (), true)) ∧
    (∀ e2, do_unmount (Except.error EBUSY) (Except.error e2) =
      (Except.error e2, true)) ∧
    (∀ e, e ≠ ENOENT → e ≠ EINVAL → e ≠ EBUSY →
      do_unmount (Except.error e) r2 = (Except.error e, false)) ∧
    ((do_unmount r1 r2).2 = true ↔ r1 = Except.error EBUSY) := by
  refine ⟨rfl, rfl, rfl, rfl, fun e2 => rfl, ?_, ?_⟩
  · intro e h1 h2 h3
    simp [do_unmount, h1, h2, h3]
  · cases r1 with
    | ok u =>
      cases u
      simp [do_unmount]
    | error e =>
      by_cases h1 : e = ENOENT
      · subst h1
        simp [do_unmount, ENOENT, EINVAL, EBUSY]
      · by_cases h2 : e = EINVAL
        · subst h2
          simp [do_unmount, ENOENT, EINVAL, EBUSY]
        · by_cases h3 : e = EBUSY
          · subst h3
            simp only [do_unmount]
            rw [if_neg (by simp [ENOENT, EBUSY]), if_neg (by simp [EINVAL, EBUSY])]
            cases r2 <;> simp
          · simp [do_unmount, h1, h2, h3]

end LibfuseFs

namespace LibfuseFs

theorem C7_do_unmount_witness :
    do_unmount (Except.error 99) (Except.ok ()) = (Except.error 99, false) :=
  (C7_do_unmount (Except.ok ()) (Except.ok ())).2.2.2.2.2.1 99 (by decide)
    (by decide) (by decide)

end LibfuseFs

namespace LibfuseFs

/-! ## BindMountManager::unmount_all (`util/bind_mount.rs`) -/

/-- The `io::ErrorKind` distinction `validate_mount_target` makes. -/
inductive FsErrKind where
  | notFound
  | other
deriving DecidableEq, Repr

/-- A recorded `MountPoint`: the target path (as path components) and the
`mounted` flag. -/
structure MountPoint where
  target : List String
  mounted : Bool
deriving DecidableEq, Repr

/-- Host oracle for `unmount_all`: the result of `Path::canonicalize` on a
path and the outcome of `do_unmount` on a target.  Paths are represented by
their component lists. -/
structure UnmountHost where
  canon : List String → Except FsErrKind (List String)
  dou : List String → Except FsErrKind Unit

/-- `ValidateResult` from `util/bind_mount.rs`. -/
inductive ValidateResult where
  | valid (canonical : List String)
  | alreadyUnmounted
  | validationFailed (e : FsErrKind)
deriving DecidableEq, Repr

/-- `BindMountManager::validate_mount_target`. -/
def validate_mount_target (h : UnmountHost) (target : List String) :
    ValidateResult :=
  match h.canon target with
  | .ok canonical => .valid canonical
  | .error e =>
    if e = FsErrKind.notFound then .alreadyUnmounted
    else .validationFailed e

/-- The `while let Some(mount) = mounts.pop()` loop of `unmount_all`,
processing the popped mounts in order; returns the collected errors and the
targets passed to `do_unmount`. -/
def unmountLoop (h : UnmountHost) (canonMp : List String) :
    List MountPoint → List FsErrKind × List (List String)
  | [] => ([], [])
  | m :: rest =>
    if m.mounted then
      match validate_mount_target h m.target with
      | .valid ct =>
        if canonMp.isPrefixOf ct then
          match h.dou m.target with
          | .ok _ =>
            ((unmountLoop h canonMp rest).1,
              m.target :: (unmountLoop h canonMp rest).2)
          | .error e =>
            (e :: (unmountLoop h canonMp rest).1,
              m.target :: (unmountLoop h canonMp rest).2)
        else unmountLoop h canonMp rest
      | .alreadyUnmounted => unmountLoop h canonMp rest
      | .validationFailed e =>
        (e :: (unmountLoop h canonMp rest).1, (unmountLoop h canonMp rest).2)
    else unmountLoop h canonMp rest

/-- `BindMountManager::unmount_all`: canonicalise the mountpoint (aborting
with `Error::other` on failure), process the recorded mounts in reverse
order, and fail with `Error::other` if any per-mount errors were collected.
Returns the result together with the list of targets passed to
`do_unmount`. -/
def unmount_all (h : UnmountHost) (mountpoint : List String)
    (mounts : List MountPoint) :
    Except FsErrKind Unit × List (List String) :=
  match h.canon mountpoint with
  | .error _ => (.error FsErrKind.other, [])
  | .ok canonMp =>
    if (unmountLoop h canonMp mounts.reverse).1.isEmpty then
      (.ok (), (unmountLoop h canonMp mounts.reverse).2)
    else (.error FsErrKind.other, (unmountLoop h canonMp mounts.reverse).2)

theorem validate_valid_canon {h : UnmountHost} {target ct : List String}
    (hv : validate_mount_target h target = ValidateResult.valid ct) :
    h.canon target = Except.ok ct := by
  rw [validate_mount_target] at hv
  cases hc : h.canon target with
  | ok c =>
    rw [hc] at hv
    simp only [] at hv
    rw [ValidateResult.valid.inj hv]
  | error e =>
    rw [hc] at hv
    by_cases he : e = FsErrKind.notFound <;> simp [he] at hv

theorem unmountLoop_spec (h : UnmountHost) (canonMp : List String)
    (ms : List MountPoint) :
    (∀ t ∈ (unmountLoop h canonMp ms).2,
      ∃ ct, h.canon t = Except.ok ct ∧ canonMp.isPrefixOf ct = true ∧
        ∃ m ∈ ms, m.mounted = true ∧ m.target = t) ∧
    ((∀ m ∈ ms, m.mounted = true →
        h.canon m.target = Except.error FsErrKind.notFound) →
      unmountLoop h canonMp ms = ([], [])) := by
  induction ms with
  | nil => exact ⟨by simp [unmountLoop], fun _ => rfl⟩
  | cons m rest ih =>
    have weaken : ∀ t, (∃ ct, h.canon t = Except.ok ct ∧
        canonMp.isPrefixOf ct = true ∧
        ∃ m' ∈ rest, m'.mounted = true ∧ m'.target = t) →
        ∃ ct, h.canon t = Except.ok ct ∧ canonMp.isPrefixOf ct = true ∧
          ∃ m' ∈ m :: rest, m'.mounted = true ∧ m'.target = t := by
      rintro t ⟨ct, hc, hp, m', hm', hmt', heq'⟩
      exact ⟨ct, hc, hp, m', List.mem_cons_of_mem _ hm', hmt', heq'⟩
    constructor
    · intro t ht
      rw [unmountLoop] at ht
      by_cases hm : m.mounted
      · rw [if_pos hm] at ht
        cases hv : validate_mount_target h m.target with
        | valid ct =>
          rw [hv] at ht
          simp only [] at ht
          by_cases hpre : canonMp.isPrefixOf ct
          · rw [if_pos hpre] at ht
            have hcanon := validate_valid_canon hv
            cases hd : h.dou m.target with
            | ok u =>
              rw [hd] at ht
              simp only [] at ht
              rcases List.mem_cons.mp ht with rfl | ht'
              · exact ⟨ct, hcanon, hpre, m, List.mem_cons_self _ _, hm, rfl⟩
              · exact weaken t (ih.1 t ht')
            | error e =>
              rw [hd] at ht
              simp only [] at ht
              rcases List.mem_cons.mp ht with rfl | ht'
              · exact ⟨ct, hcanon, hpre, m, List.mem_cons_self _ _, hm, rfl⟩
              · exact weaken t (ih.1 t ht')
          · rw [if_neg hpre] at ht
            exact weaken t (ih.1 t ht)
        | alreadyUnmounted =>
          rw [hv] at ht
          simp only [] at ht
          exact weaken t (ih.1 t ht)
        | validationFailed e =>
          rw [hv] at ht
          simp only [] at ht
          exact weaken t (ih.1 t ht)
      · rw [if_neg hm] at ht
        exact weaken t (ih.1 t ht)
    · intro hall
      rw [unmountLoop]
      by_cases hm : m.mounted
      · rw [if_pos hm]
        have hc := hall m (List.mem_cons_self _ _) hm
        have hv : validate_mount_target h m.target =
            ValidateResult.alreadyUnmounted := by
          rw [validate_mount_target, hc]
          rfl
        rw [hv]
        exact ih.2 (fun m' hm' hmt' =>
          hall m' (List.mem_cons_of_mem _ hm') hmt')
      · rw [if_neg hm]
        exact ih.2 (fun m' hm' hmt' =>
          hall m' (List.mem_cons_of_mem _ hm') hmt')

/-- C6: `unmount_all` never passes a target outside the base directory to
`do_unmount`: every invoked target is a recorded, still-mounted target
whose canonicalisation succeeded and whose canonical path starts with the
canonicalised mountpoint; and when every recorded mounted target no longer
exists (its canonicalisation fails with NotFound), all of them are skipped
silently — no unmount is invoked and the result is `Ok(())`. -/
theorem C6_unmount_all_containment (h : UnmountHost)
    (mountpoint : List String) (mounts : List MountPoint) :
    (∀ t ∈ (unmount_all h mountpoint mounts).2,
      ∃ canonMp ct, h.canon mountpoint = Except.ok canonMp ∧
        h.canon t = Except.ok ct ∧ canonMp.isPrefixOf ct = true ∧
        ∃ m ∈ mounts, m.mounted = true ∧ m.target = t) ∧
    (∀ canonMp, h.canon mountpoint = Except.ok canonMp →
      (∀ m ∈ mounts, m.mounted = true →
        h.canon m.target = Except.error FsErrKind.notFound) →
      unmount_all h mountpoint mounts = (Except.ok (), [])) := by
  constructor
  · intro t ht
    rw [unmount_all] at ht
    cases hmp : h.canon mountpoint with
    | error e =>
      rw [hmp] at ht
      simp at ht
    | ok canonMp =>
      rw [hmp] at ht
      simp only [] at ht
      have hspec := (unmountLoop_spec h canonMp mounts.reverse).1
      have hinv : t ∈ (unmountLoop h canonMp mounts.reverse).2 := by
        by_cases hemp : (unmountLoop h canonMp mounts.reverse).1.isEmpty
        · rw [if_pos hemp] at ht
          exact ht
        · rw [if_neg hemp] at ht
          exact ht
      obtain ⟨ct, hc, hp, m, hm, hmt, heq⟩ := hspec t hinv
      exact ⟨canonMp, ct, rfl, hc, hp, m, List.mem_reverse.mp hm, hmt, heq⟩
  · intro canonMp hmp hall
    rw [unmount_all, hmp]
    have hloop := (unmountLoop_spec h canonMp mounts.reverse).2
      (fun m hm hmt => hall m (List.mem_reverse.mp hm) hmt)
    simp only [hloop]
    rfl

theorem C6_unmount_all_containment_witness :
    unmount_all
        ⟨fun p => if p = ["/", "base"] then Except.ok ["/", "base"]
          else Except.error FsErrKind.notFound,
          fun _ => Except.ok ()⟩
        ["/", "base"] [⟨["/", "base", "sub"], true⟩] = (Except.ok (), []) :=
  (C6_unmount_all_containment _ ["/", "base"]
      [⟨["/", "base", "sub"], true⟩]).2 ["/", "base"] (by decide) (by
    intro m hm hmt
    simp at hm
    rw [hm]
    decide)

end LibfuseFs

namespace LibfuseFs

/-! ## BindManager::mount_all (`util/bind.rs`) -/

/-- Strings are modelled as lists of characters (`String.toList`). -/
abbrev Str := List Char

/-- Rust `str::split` on a single-character separator. -/
def strSplit (sep : Char) : Str → List Str
  | [] => [[]]
  | c :: rest =>
    let r := strSplit sep rest
    if c = sep then [] :: r
    else
      match r with
      | [] => [[c]]
      | w :: ws => (c :: w) :: ws

/-- `Path::components` for a slash-separated path: a root marker (rendered
as the segment "/", which plain splitting never produces) for an absolute
path, empty segments dropped, and `.` segments dropped except a leading one
in a relative path. -/
def pathComponents (p : Str) : List Str :=
  let abs : Bool :=
    match p with
    | '/' :: _ => true
    | _ => false
  let raw := (strSplit '/' p).filter (fun c => c ≠ [])
  let norm :=
    if abs then raw.filter (fun c => c ≠ ['.'])
    else
      match raw with
      | [] => []
      | c :: rest => c :: rest.filter (fun c => c ≠ ['.'])
  (if abs then [['/']] else []) ++ norm

/-- `Path::join`: an absolute right-hand side replaces the base. -/
def pathJoin (base rel : Str) : Str :=
  match rel with
  | '/' :: _ => rel
  | _ => base ++ '/' :: rel

/-- `Path::starts_with`: component-wise prefix. -/
def pathStartsWith (p base : Str) : Bool :=
  (pathComponents base).isPrefixOf (pathComponents p)

/-- Resolution of `..` components against their preceding component — the
spec's "after canonicalisation".  Modelled from the spec:
`BindManager::mount_all` itself performs no canonicalisation; this
definition only states what the spec demands of the resolved target. -/
def resolveComponents (comps : List Str) : List Str :=
  comps.foldl
    (fun acc c =>
      if c = ['.', '.'] then
        if acc = [] ∨ acc = [['/']] then acc else acc.dropLast
      else acc ++ [c])
    []

/-- `fs::metadata`-style answer for a path. -/
inductive FileMeta where
  | absent
  | dir
  | file
deriving DecidableEq, Repr

/-- Filesystem oracle for `BindMount::new`: metadata answers per path.
Directory/file creation and the `mount(2)`/read-only remount syscalls are
modelled as succeeding. -/
structure BindHost where
  meta : Str → FileMeta

/-- What one `BindMount::new` performed: the paths it created (with the
kind it created them as) and the mount syscalls it issued, as
`(source, target, remount-read-only?)` triples. -/
structure BindTrace where
  created : List (Str × FileMeta)
  mounted : List (Str × Str × Bool)
deriving DecidableEq, Repr

/-- `BindMount::new`: stat the source (error when absent); if the target
does not exist, create it matching the source's type (a directory for a
directory source, parent directories plus an empty file otherwise); if it
exists, reject a directory/non-directory mismatch; then bind-mount, plus a
read-only remount when requested. -/
def bindMountNew (host : BindHost) (source target : Str)
    (read_only : Bool) : Except String BindTrace :=
  match host.meta source with
  | FileMeta.absent => Except.error "Failed to stat source"
  | sm =>
    let mounts : List (Str × Str × Bool) :=
      if read_only then [(source, target, false), (source, target, true)]
      else [(source, target, false)]
    match host.meta target with
    | FileMeta.absent =>
      Except.ok ⟨[(target, if sm = FileMeta.dir then FileMeta.dir
        else FileMeta.file)], mounts⟩
    | tm =>
      if decide (sm = FileMeta.dir) = decide (tm = FileMeta.dir) then
        Except.ok ⟨[], mounts⟩
      else Except.error "Source and target type mismatch"

/-- `BindManager::mount_all`: parse each `target:source[:ro]` argument,
join the target onto `base_dir`, apply the `starts_with` containment check
(the source performs no canonicalisation), and run `BindMount::new`;
returns the traces of the performed binds, or the first error. -/
def mount_all (host : BindHost) (base_dir : Str) :
    List Str → Except String (List BindTrace)
  | [] => Except.ok []
  | arg :: rest =>
    let parts := strSplit ':' arg
    if parts.length < 2 ∨ 3 < parts.length then
      Except.error "Invalid bind argument format"
    else
      match (if parts.length = 3 then
          (if parts.getD 2 [] = ['r', 'o'] then Except.ok true
            else Except.error "Invalid bind option")
        else Except.ok false : Except String Bool) with
      | Except.error e => Except.error e
      | Except.ok read_only =>
        let target := pathJoin base_dir (parts.getD 0 [])
        if ! pathStartsWith target base_dir then
          Except.error "Target path attempts to escape base directory"
        else
          match bindMountNew host (parts.getD 1 []) target read_only with
          | Except.error e => Except.error e
          | Except.ok tr =>
            match mount_all host base_dir rest with
            | Except.error e => Except.error e
            | Except.ok trs => Except.ok (tr :: trs)

/-- A concrete host for the failing input: `/src` is a directory, nothing
else exists. -/
def escapeHost : BindHost :=
  ⟨fun p => if p = "/src".toList then FileMeta.dir else FileMeta.absent⟩

/-- C8 (code-bug evaluation at the failing input): for base directory
`/base` and bind argument `../etc:/src`, `mount_all` joins the relative
target to `/base/../etc`, the `starts_with` containment check passes —
`starts_with` is applied to the *uncanonicalised* join, whose components
`["/", "base", "..", "etc"]` do extend `["/", "base"]` — and the bind
mount is performed, although the target resolves ("after canonicalisation",
as the spec demands) to `/etc`, outside the base directory.  No error is
returned; the created target matches the source's directory type. -/
theorem C8_mount_all_traversal_escape :
    mount_all escapeHost "/base".toList ["../etc:/src".toList] =
      Except.ok [⟨[("/base/../etc".toList, FileMeta.dir)],
        [("/src".toList, "/base/../etc".toList, false)]⟩] ∧
    pathStartsWith "/base/../etc".toList "/base".toList = true ∧
    resolveComponents (pathComponents "/base/../etc".toList) =
      [['/'], ['e', 't', 'c']] ∧
    (pathComponents "/base".toList).isPrefixOf
      (resolveComponents (pathComponents "/base/../etc".toList)) = false := by
  refine ⟨by decide, by decide, by decide, by decide⟩

end LibfuseFs
